import Mathlib

/-!
Verification of the vmxtool dictionary core (the case-insensitive,
inline-comment-preserving variant of the tool).

The embedding models Go strings as `List Char` (the inputs of interest are
ASCII, where byte indexing and character indexing coincide).  File contents
are modelled as a `List Char`; a missing file is modelled as `none` in
`loadDictionary`.  The `Dictionary.Filename` field of the source, pure I/O
metadata, is not modelled.  Go's `strings.ToLower` and `strings.EqualFold`
are modelled by ASCII lowercasing, which agrees with them on ASCII input.
-/

namespace Vmxtool

/-- ASCII fragment of Go `unicode.IsSpace`, used by `strings.TrimSpace`. -/
def isSpaceChar (c : Char) : Bool :=
  c = ' ' || c = '\t' || c = '\n' || c = '\x0b' || c = '\x0c' || c = '\r'

/-- Left part of Go `strings.TrimSpace`. -/
def trimLeft (l : List Char) : List Char := l.dropWhile isSpaceChar

/-- Right part of Go `strings.TrimSpace`. -/
def trimRight (l : List Char) : List Char := (l.reverse.dropWhile isSpaceChar).reverse

/-- Go `strings.TrimSpace`. -/
def trimSpace (l : List Char) : List Char := trimRight (trimLeft l)

/-- Go `strings.TrimRight(s, " \t")`, used by `Save` on the key part. -/
def trimRightST (l : List Char) : List Char :=
  (l.reverse.dropWhile (fun c => c = ' ' || c = '\t')).reverse

/-- Go `strings.SplitN(s, "=", 2)`: `some (before, after)` splits at the first
`'='`; `none` when the separator is absent (the `len(parts) != 2` case). -/
def splitEq : List Char → Option (List Char × List Char)
  | [] => none
  | c :: rest =>
    if c = '=' then some ([], rest)
    else
      match splitEq rest with
      | some (a, b) => some (c :: a, b)
      | none => none

/-- Split at the first `'#'` (Go `strings.Index(s, "#")`); the `'#'` itself is
kept in the second component, mirroring `remainder[:idx]` / `remainder[idx:]`. -/
def splitHash : List Char → Option (List Char × List Char)
  | [] => none
  | c :: rest =>
    if c = '#' then some ([], c :: rest)
    else
      match splitHash rest with
      | some (a, b) => some (c :: a, b)
      | none => none

/-- ASCII model of Go `strings.ToLower` on one character. -/
def toLowerChar (c : Char) : Char :=
  if 'A' ≤ c ∧ c ≤ 'Z' then Char.ofNat (c.toNat + 32) else c

/-- ASCII model of Go `strings.ToLower`. -/
def toLowerList (l : List Char) : List Char := l.map toLowerChar

/-- Go `escapeQuotes`: `strings.ReplaceAll(value, "\"", "\\\"")`. -/
def escapeQuotes : List Char → List Char
  | [] => []
  | c :: rest =>
    if c = '"' then '\\' :: '"' :: escapeQuotes rest
    else c :: escapeQuotes rest

/-- Go `unescapeQuotes`: `strings.ReplaceAll(value, "\\\"", "\"")`
(leftmost, non-overlapping). -/
def unescapeQuotes : List Char → List Char
  | [] => []
  | [c] => [c]
  | c :: d :: rest =>
    if c = '\\' ∧ d = '"' then '"' :: unescapeQuotes rest
    else c :: unescapeQuotes (d :: rest)

/-- Loop body of Go `findClosingQuote`: `i` is the current byte index into `s`
and the third argument is `s.drop i`, so the structural recursion mirrors the
`for i := startIdx; i < len(s); i++` loop exactly. -/
def findClosingQuoteGo (s : List Char) : Nat → List Char → Option Nat
  | _, [] => none
  | i, c :: rest =>
    if c = '"' ∧ ¬(0 < i ∧ s[i-1]? = some '\\') then some i
    else findClosingQuoteGo s (i+1) rest

/-- Go `findClosingQuote(s, startIdx)`: index of the first unescaped `'"'` at
or after `startIdx` (`none` models the `-1` return). -/
def findClosingQuote (s : List Char) (startIdx : Nat) : Option Nat :=
  findClosingQuoteGo s startIdx (s.drop startIdx)

/-- Go `Entry`: one line of the dictionary file. -/
structure Entry where
  original : List Char
  key : List Char := []
  value : List Char := []
  inlineComment : List Char := []
  inlineCommentSpace : List Char := []
  isComment : Bool := false
  isBlank : Bool := false
deriving DecidableEq, Repr

/-- Go `Dictionary` (the `Filename` metadata field is not modelled). -/
structure Dictionary where
  entries : List Entry
deriving DecidableEq, Repr

/-- The literal `" = "` inserted between key and value on serialized lines. -/
def assignSep : List Char := [' ', '=', ' ']

/-- The canonical quoted form of a value: a quote, the escaped value, a quote. -/
def quotedForm (v : List Char) : List Char := '"' :: (escapeQuotes v ++ ['"'])

/-- Loop body of Go `LoadDictionary`: classification and field extraction for
one raw line. -/
def parseLine (original : List Char) : Entry :=
  let trimmed := trimSpace original
  if trimmed = [] then { original := original, isBlank := true }
  else if trimmed.head? = some '#' then { original := original, isComment := true }
  else
    match splitEq trimmed with
    | none => { original := original, isComment := true }
    | some (left, right) =>
      let key := trimSpace left
      let valueAndComment := trimSpace right
      if valueAndComment.head? = some '"' then
        match findClosingQuote valueAndComment 1 with
        | some endQuoteIdx =>
          let value := unescapeQuotes ((valueAndComment.drop 1).take (endQuoteIdx - 1))
          let remainder := valueAndComment.drop (endQuoteIdx + 1)
          match splitHash remainder with
          | some (sp, cm) =>
            { original := original
              key := key
              value := value
              inlineComment := cm
              inlineCommentSpace := sp }
          | none => { original := original, key := key, value := value }
        | none => { original := original, key := key, value := valueAndComment }
      else
        match splitHash valueAndComment with
        | some (before, cm) =>
          let value := trimSpace before
          let sp := if value.length < before.length then before.drop value.length else []
          { original := original
            key := key
            value := value
            inlineComment := cm
            inlineCommentSpace := sp }
        | none => { original := original, key := key, value := valueAndComment }

/-- Model of dropCR in Go `bufio.ScanLines`: strip one trailing carriage return. -/
def dropCR (l : List Char) : List Char :=
  if l.getLast? = some '\r' then l.dropLast else l

/-- Accumulator pass of `bufio.Scanner` with `ScanLines`: tokens are the
newline-separated segments (carriage return before the newline stripped); a
nonempty final segment without a newline is still produced. -/
def splitLinesGo (acc : List Char) : List Char → List (List Char)
  | [] => if acc.isEmpty then [] else [dropCR acc.reverse]
  | c :: rest =>
    if c = '\n' then dropCR acc.reverse :: splitLinesGo [] rest
    else splitLinesGo (c :: acc) rest

/-- The sequence of lines Go's scanner yields for a file's contents. -/
def splitLines (s : List Char) : List (List Char) := splitLinesGo [] s

/-- Go `LoadDictionary` over file contents; `none` models a nonexistent file
(`os.IsNotExist`), which yields an empty dictionary and no error. -/
def loadDictionary : Option (List Char) → Dictionary
  | none => ⟨[]⟩
  | some s => ⟨(splitLines s).map parseLine⟩

/-- Per-entry line construction of Go `Save`. -/
def renderEntry (e : Entry) : List Char :=
  if e.isBlank then []
  else if e.isComment then e.original
  else if e.key.isEmpty then e.original
  else
    let base :=
      match splitEq e.original with
      | some (left, _) => trimRightST left ++ assignSep ++ quotedForm e.value
      | none => e.key ++ assignSep ++ quotedForm e.value
    if e.inlineComment.isEmpty then base else base ++ e.inlineCommentSpace ++ e.inlineComment

/-- Per-entry line construction of Go `Print` (which uses `entry.Key` directly
instead of re-splitting `entry.Original`). -/
def renderPrintEntry (e : Entry) : List Char :=
  if e.isBlank then []
  else if e.isComment then e.original
  else if e.key.isEmpty then e.original
  else
    let base := e.key ++ assignSep ++ quotedForm e.value
    if e.inlineComment.isEmpty then base else base ++ e.inlineCommentSpace ++ e.inlineComment

/-- Join lines back into file contents, a `'\n'` after every line, exactly as
`Save` writes `line + "\n"` per entry (and `Print` emits one line per entry). -/
def encodeLines : List (List Char) → List Char
  | [] => []
  | l :: ls => l ++ '\n' :: encodeLines ls

/-- The full contents Go `Save` writes for a dictionary. -/
def Dictionary.saveContent (d : Dictionary) : List Char :=
  encodeLines (d.entries.map renderEntry)

/-- The full text Go `Print` emits for a dictionary. -/
def Dictionary.printContent (d : Dictionary) : List Char :=
  encodeLines (d.entries.map renderPrintEntry)

/-- Go `findEntryCaseInsensitive`: first entry whose key matches
case-insensitively. -/
def Dictionary.findEntryCaseInsensitive (d : Dictionary) (k : List Char) : Option Entry :=
  d.entries.find? (fun e => toLowerList e.key == toLowerList k)

/-- Go `normalizeKeyCase`. -/
def Dictionary.normalizeKeyCase (d : Dictionary) (k : List Char) : List Char :=
  match d.findEntryCaseInsensitive k with
  | some e => e.key
  | none => k

/-- Go `KeyExists`. -/
def Dictionary.keyExists (d : Dictionary) (k : List Char) : Bool :=
  (d.findEntryCaseInsensitive k).isSome

/-- The entry Go `Add` (and the append branch of `Set`) constructs:
`Original` is `key + " = " + "\"" + escapeQuotes(value) + "\""`, the comment
fields empty and both flags false. -/
def addEntry (k v : List Char) : Entry :=
  { original := k ++ assignSep ++ quotedForm v, key := k, value := v }

/-- Go `Add`; `none` models the `DuplicateKeyError` return. -/
def Dictionary.add (d : Dictionary) (k v : List Char) : Option Dictionary :=
  if d.keyExists k then none
  else some ⟨d.entries ++ [addEntry k v]⟩

/-- The in-place mutation Go `Set` applies to the entry it found: new value,
`Original` re-synthesized in canonical quoted form with the stored inline
comment (and its exact spacing) re-appended. -/
def setUpdatedEntry (e : Entry) (v : List Char) : Entry :=
  { e with
    value := v
    original := e.key ++ assignSep ++ quotedForm v ++
      (if e.inlineComment.isEmpty then [] else e.inlineCommentSpace ++ e.inlineComment) }

/-- Update of the first case-insensitive match, mirroring the pointer mutation
in Go `Set` (the pointer returned by `findEntryCaseInsensitive` is the first
match of the scan). -/
def updateFirstCI (k v : List Char) : List Entry → List Entry
  | [] => []
  | e :: rest =>
    if toLowerList e.key == toLowerList k then setUpdatedEntry e v :: rest
    else e :: updateFirstCI k v rest

/-- Go `Set`. -/
def Dictionary.set (d : Dictionary) (k v : List Char) : Dictionary :=
  if (d.findEntryCaseInsensitive k).isSome then ⟨updateFirstCI k v d.entries⟩
  else ⟨d.entries ++ [addEntry (d.normalizeKeyCase k) v]⟩

/-- Deletion of the first case-insensitive match (Go `Remove` uses
`strings.EqualFold`, modelled as equal ASCII lowerings); `none` when no match. -/
def removeFirstCI (k : List Char) : List Entry → Option (List Entry)
  | [] => none
  | e :: rest =>
    if toLowerList e.key == toLowerList k then some rest
    else
      match removeFirstCI k rest with
      | some rest2 => some (e :: rest2)
      | none => none

/-- Go `Remove`; `none` models the `KeyNotFoundError` return. -/
def Dictionary.remove (d : Dictionary) (k : List Char) : Option Dictionary :=
  match removeFirstCI k d.entries with
  | some l => some ⟨l⟩
  | none => none

/-- Go `Query`; `none` models the `KeyNotFoundError` return. -/
def Dictionary.query (d : Dictionary) (k : List Char) : Option (List Char) :=
  match d.findEntryCaseInsensitive k with
  | some e => some e.value
  | none => none

/-- Keys for which the canonical serialized line re-parses to the same key:
nonempty, not whitespace at either end, not starting with the comment marker
and free of the assignment and line separators. -/
def goodKey : List Char → Bool
  | [] => false
  | c :: rest =>
    !isSpaceChar c && c != '#' && !decide ('=' ∈ c :: rest) && !decide ('\n' ∈ c :: rest) &&
    !isSpaceChar (rest.getLastD c)

/-- The exact line shape `Save` produces for an entry whose key part needed no
trimming: canonical `KEY = "VALUE"` plus the recorded inline comment. -/
def canonicalEntryLine (k v gap cmt : List Char) : List Char :=
  k ++ assignSep ++ quotedForm v ++ (if cmt.isEmpty then [] else gap ++ cmt)

/-- Lines that serialization reproduces byte-for-byte: the truly empty line, a
line classified as comment, or an assignment line already in the canonical
quoted form (with optional inline comment) over a well-behaved key. -/
def wellFormedLine (l : List Char) : Bool :=
  !decide ('\n' ∈ l) && (l.getLast? != some '\r') &&
  (let e := parseLine l
   if e.isBlank then l.isEmpty
   else if e.isComment then true
   else goodKey e.key &&
     decide (l = canonicalEntryLine e.key e.value e.inlineCommentSpace e.inlineComment))

/-! ### Lemmas on trimming and splitting -/

theorem dropWhile_eq_self_of_head {p : Char → Bool} {l : List Char} {c : Char}
    (h : l.head? = some c) (hc : p c = false) : l.dropWhile p = l := by
  cases l with
  | nil => rfl
  | cons a t =>
    simp only [List.head?_cons, Option.some.injEq] at h
    subst h
    simp [List.dropWhile_cons, hc]

theorem trimLeft_eq_self {l : List Char} {c : Char}
    (h : l.head? = some c) (hc : isSpaceChar c = false) : trimLeft l = l :=
  dropWhile_eq_self_of_head h hc

theorem trimRight_eq_self {l : List Char} {c : Char}
    (h : l.getLast? = some c) (hc : isSpaceChar c = false) : trimRight l = l := by
  unfold trimRight
  rw [dropWhile_eq_self_of_head (by rw [List.head?_reverse, h]) hc, List.reverse_reverse]

theorem trimSpace_eq_self {l : List Char} {c d : Char}
    (h1 : l.head? = some c) (hc : isSpaceChar c = false)
    (h2 : l.getLast? = some d) (hd : isSpaceChar d = false) : trimSpace l = l := by
  unfold trimSpace
  rw [trimLeft_eq_self h1 hc, trimRight_eq_self h2 hd]

theorem trimRight_append_space {l : List Char} {c : Char}
    (hc : isSpaceChar c = true) : trimRight (l ++ [c]) = trimRight l := by
  unfold trimRight
  rw [List.reverse_append]
  simp [List.dropWhile_cons, hc]

theorem trimRightST_append_space (l : List Char) :
    trimRightST (l ++ [' ']) = trimRightST l := by
  unfold trimRightST
  rw [List.reverse_append]
  simp [List.dropWhile_cons]

theorem trimRightST_eq_self {l : List Char} {c : Char}
    (h : l.getLast? = some c) (hc : isSpaceChar c = false) : trimRightST l = l := by
  unfold trimRightST
  have hc2 : (c = ' ' || c = '\t') = false := by
    revert hc
    unfold isSpaceChar
    rcases Decidable.em (c = ' ') with h1 | h1 <;> rcases Decidable.em (c = '\t') with h2 | h2 <;>
      simp [h1, h2]
  rw [dropWhile_eq_self_of_head (by rw [List.head?_reverse, h]) hc2, List.reverse_reverse]

theorem splitEq_append {a : List Char} (b : List Char) (h : '=' ∉ a) :
    splitEq (a ++ '=' :: b) = some (a, b) := by
  induction a with
  | nil => simp [splitEq]
  | cons c t ih =>
    have hc : c ≠ '=' := fun hc => h (hc ▸ List.mem_cons_self c t)
    have ht : '=' ∉ t := fun ht => h (List.mem_cons_of_mem c ht)
    simp [splitEq, hc, ih ht]

theorem splitEq_eq_none {l : List Char} (h : '=' ∉ l) : splitEq l = none := by
  induction l with
  | nil => rfl
  | cons c t ih =>
    have hc : c ≠ '=' := fun hc => h (hc ▸ List.mem_cons_self c t)
    have ht : '=' ∉ t := fun ht => h (List.mem_cons_of_mem c ht)
    simp [splitEq, hc, ih ht]

theorem mem_trimLeft {c : Char} {l : List Char} (h : c ∈ trimLeft l) : c ∈ l :=
  (List.dropWhile_sublist _).mem h

theorem mem_trimRight {c : Char} {l : List Char} (h : c ∈ trimRight l) : c ∈ l := by
  unfold trimRight at h
  rw [List.mem_reverse] at h
  exact List.mem_reverse.mp ((List.dropWhile_sublist _).mem h)

theorem mem_trimSpace {c : Char} {l : List Char} (h : c ∈ trimSpace l) : c ∈ l :=
  mem_trimLeft (mem_trimRight h)

/-! ### Lemmas on escaping -/

theorem mem_escapeQuotes {c : Char} {v : List Char} (h : c ∈ escapeQuotes v) :
    c ∈ v ∨ c = '\\' ∨ c = '"' := by
  induction v with
  | nil => simp [escapeQuotes] at h
  | cons a t ih =>
    by_cases ha : a = '"'
    · simp only [escapeQuotes, if_pos ha, List.mem_cons] at h
      rcases h with h | h | h
      · exact Or.inr (Or.inl h)
      · exact Or.inr (Or.inr h)
      · rcases ih h with h2 | h2
        · exact Or.inl (List.mem_cons_of_mem a h2)
        · exact Or.inr h2
    · simp only [escapeQuotes, if_neg ha, List.mem_cons] at h
      rcases h with h | h
      · exact Or.inl (h ▸ List.mem_cons_self a t)
      · rcases ih h with h2 | h2
        · exact Or.inl (List.mem_cons_of_mem a h2)
        · exact Or.inr h2

theorem unescapeQuotes_escapeQuotes {v : List Char} (h : '\\' ∉ v) :
    unescapeQuotes (escapeQuotes v) = v := by
  induction v with
  | nil => rfl
  | cons a t ih =>
    have ha : a ≠ '\\' := fun hc => h (hc ▸ List.mem_cons_self a t)
    have ht : '\\' ∉ t := fun hc => h (List.mem_cons_of_mem a hc)
    by_cases hq : a = '"'
    · subst hq
      simp only [escapeQuotes, if_pos rfl]
      simp [unescapeQuotes, ih ht]
    · simp only [escapeQuotes, if_neg hq]
      cases he : escapeQuotes t with
      | nil =>
        have : unescapeQuotes (escapeQuotes t) = t := ih ht
        rw [he] at this
        simp [unescapeQuotes, ← this]
      | cons b r =>
        have hstep : unescapeQuotes (a :: b :: r) = a :: unescapeQuotes (b :: r) := by
          simp [unescapeQuotes, ha]
        rw [hstep, ← he, ih ht]

/-! ### The closing-quote scan on an escaped value -/

theorem findClosingQuoteGo_cons (s : List Char) (i : Nat) (c : Char) (rest : List Char) :
    findClosingQuoteGo s i (c :: rest) =
      if c = '"' ∧ ¬(0 < i ∧ s[i-1]? = some '\\') then some i
      else findClosingQuoteGo s (i+1) rest := rfl

theorem findGo_escapeQuotes {v : List Char} (hv : '\\' ∉ v) :
    ∀ (t s : List Char) (i : Nat) (p : Char), 1 ≤ i →
    s.drop (i-1) = p :: (escapeQuotes v ++ '"' :: t) → p ≠ '\\' →
    findClosingQuoteGo s i (escapeQuotes v ++ '"' :: t) =
      some (i + (escapeQuotes v).length) := by
  induction v with
  | nil =>
    intro t s i p hi hdrop hp
    have hget : s[i-1]? = some p := by
      have := List.getElem?_drop s (i-1) 0
      rw [hdrop] at this
      simpa using this.symm
    simp only [escapeQuotes, List.nil_append, List.length_nil, Nat.add_zero]
    rw [findClosingQuoteGo_cons, if_pos]
    refine ⟨rfl, ?_⟩
    rintro ⟨-, hcon⟩
    rw [hget] at hcon
    exact hp (by simpa using hcon)
  | cons a v' ih =>
    intro t s i p hi hdrop hp
    have ha : a ≠ '\\' := fun hc => hv (hc ▸ List.mem_cons_self a v')
    have hv' : '\\' ∉ v' := fun hc => hv (List.mem_cons_of_mem a hc)
    have hdrop_i : s.drop i = escapeQuotes (a :: v') ++ '"' :: t := by
      have h1 : s.drop ((i-1) + 1) = (s.drop (i-1)).drop 1 := by
        rw [List.drop_drop]
      have h2 : (i-1) + 1 = i := by omega
      rw [h2] at h1
      rw [h1, hdrop]
      rfl
    by_cases hq : a = '"'
    · subst hq
      have hesc : escapeQuotes ('"' :: v') = '\\' :: '"' :: escapeQuotes v' := by
        simp [escapeQuotes]
      rw [hesc] at hdrop_i ⊢
      have hget_i : s[i]? = some '\\' := by
        have := List.getElem?_drop s i 0
        rw [hdrop_i] at this
        simpa using this.symm
      -- two scan steps: the backslash, then the escaped quote
      have step1 : findClosingQuoteGo s i ('\\' :: ('"' :: (escapeQuotes v' ++ '"' :: t))) =
          findClosingQuoteGo s (i+1) ('"' :: (escapeQuotes v' ++ '"' :: t)) := by
        rw [findClosingQuoteGo_cons, if_neg]
        rintro ⟨hcon, -⟩
        exact absurd hcon (by decide)
      have step2 : findClosingQuoteGo s (i+1) ('"' :: (escapeQuotes v' ++ '"' :: t)) =
          findClosingQuoteGo s (i+2) (escapeQuotes v' ++ '"' :: t) := by
        rw [findClosingQuoteGo_cons, if_neg]
        rintro ⟨-, hcon⟩
        apply hcon
        refine ⟨by omega, ?_⟩
        have h1 : i + 1 - 1 = i := by omega
        rw [h1, hget_i]
      have hdrop2 : s.drop ((i+2)-1) = '"' :: (escapeQuotes v' ++ '"' :: t) := by
        have h1 : (i+2)-1 = i+1 := by omega
        rw [h1]
        have h2 : s.drop (i+1) = (s.drop i).drop 1 := by rw [List.drop_drop]
        rw [h2, hdrop_i]
        rfl
      have := ih hv' t s (i+2) '"' (by omega) hdrop2 (by decide)
      calc findClosingQuoteGo s i ('\\' :: ('"' :: (escapeQuotes v' ++ '"' :: t)))
          = findClosingQuoteGo s (i+2) (escapeQuotes v' ++ '"' :: t) := by rw [step1, step2]
        _ = some (i + 2 + (escapeQuotes v').length) := this
        _ = some (i + ('\\' :: '"' :: escapeQuotes v').length) := by
            simp only [List.length_cons]
            congr 1
            omega
    · have hesc : escapeQuotes (a :: v') = a :: escapeQuotes v' := by
        simp [escapeQuotes, hq]
      rw [hesc] at hdrop_i ⊢
      have step1 : findClosingQuoteGo s i (a :: (escapeQuotes v' ++ '"' :: t)) =
          findClosingQuoteGo s (i+1) (escapeQuotes v' ++ '"' :: t) := by
        rw [findClosingQuoteGo_cons, if_neg]
        rintro ⟨hcon, -⟩
        exact hq hcon
      have hdrop2 : s.drop ((i+1)-1) = a :: (escapeQuotes v' ++ '"' :: t) := by
        have h1 : (i+1)-1 = i := by omega
        rw [h1, hdrop_i]
        rfl
      have := ih hv' t s (i+1) a (by omega) hdrop2 ha
      calc findClosingQuoteGo s i (a :: (escapeQuotes v' ++ '"' :: t))
          = findClosingQuoteGo s (i+1) (escapeQuotes v' ++ '"' :: t) := step1
        _ = some (i + 1 + (escapeQuotes v').length) := this
        _ = some (i + (a :: escapeQuotes v').length) := by
            simp only [List.length_cons]
            congr 1
            omega

theorem findClosingQuote_quotedForm {v : List Char} (hv : '\\' ∉ v) :
    findClosingQuote (quotedForm v) 1 = some ((escapeQuotes v).length + 1) := by
  unfold findClosingQuote quotedForm
  have hdrop : ('"' :: (escapeQuotes v ++ ['"'])).drop 1 = escapeQuotes v ++ '"' :: [] := rfl
  rw [hdrop]
  have := findGo_escapeQuotes hv [] ('"' :: (escapeQuotes v ++ ['"'])) 1 '"'
    (le_refl 1) (by rfl) (by decide)
  rw [this]
  congr 1
  omega

/-! ### Facts extracted from `goodKey` -/

theorem goodKey_props {k : List Char} (h : goodKey k = true) :
    k ≠ [] ∧ (∃ c, k.head? = some c ∧ isSpaceChar c = false ∧ c ≠ '#') ∧
    (∃ d, k.getLast? = some d ∧ isSpaceChar d = false) ∧ '=' ∉ k ∧ '\n' ∉ k := by
  cases k with
  | nil => exact absurd h (by decide)
  | cons c r =>
    simp only [goodKey, Bool.and_eq_true, Bool.not_eq_true', bne_iff_ne, ne_eq,
      decide_eq_false_iff_not] at h
    obtain ⟨⟨⟨⟨hsp, hhash⟩, hmeq⟩, hmnl⟩, hlast⟩ := h
    refine ⟨by simp, ⟨c, rfl, hsp, hhash⟩, ⟨r.getLastD c, ?_, hlast⟩, hmeq, hmnl⟩
    rw [List.getLast?_cons, List.getLastD_eq_getLast?]

/-! ### Structural facts about `parseLine` -/

theorem parseLine_original (l : List Char) : (parseLine l).original = l := by
  unfold parseLine
  dsimp only
  repeat' split
  all_goals rfl

theorem parseLine_flags_exclusive (l : List Char) :
    ¬((parseLine l).isBlank = true ∧ (parseLine l).isComment = true) := by
  unfold parseLine
  dsimp only
  repeat' split
  all_goals simp

theorem parseLine_isBlank_of_trim_nil {l : List Char} (h : trimSpace l = []) :
    parseLine l = { original := l, isBlank := true } := by
  unfold parseLine
  rw [h]
  simp

theorem parseLine_comment_of_noEq {l : List Char} (h1 : trimSpace l ≠ [])
    (h2 : (trimSpace l).head? ≠ some '#') (h3 : '=' ∉ l) :
    parseLine l = { original := l, isComment := true } := by
  have hsplit : splitEq (trimSpace l) = none :=
    splitEq_eq_none (fun hm => h3 (mem_trimSpace hm))
  unfold parseLine
  rw [if_neg h1, if_neg h2, hsplit]

/-- Parsing the canonical line `KEY = "VALUE"` (value quote-escaped) recovers
exactly the key and the unescaped value, with no inline comment. -/
theorem parseLine_canonicalPair {k v : List Char} (hk : goodKey k = true) (hv : '\\' ∉ v) :
    parseLine (k ++ assignSep ++ quotedForm v) = addEntry k v := by
  unfold addEntry
  obtain ⟨hne, ⟨c, hhead, hcsp, hchash⟩, ⟨d, hlast, hdsp⟩, hmeq, -⟩ := goodKey_props hk
  have hline_head : (k ++ assignSep ++ quotedForm v).head? = some c := by
    cases k with
    | nil => exact absurd rfl hne
    | cons a r => simpa using hhead
  have hline_last : (k ++ assignSep ++ quotedForm v).getLast? = some '"' := by
    have hshape : k ++ assignSep ++ quotedForm v =
        (k ++ assignSep ++ '"' :: escapeQuotes v) ++ ['"'] := by
      simp [quotedForm, List.append_assoc]
    rw [hshape, List.getLast?_concat]
  have htrim : trimSpace (k ++ assignSep ++ quotedForm v) = k ++ assignSep ++ quotedForm v :=
    trimSpace_eq_self hline_head hcsp hline_last (by decide)
  have hnenil : ¬(k ++ assignSep ++ quotedForm v = []) := by
    cases k with
    | nil => exact absurd rfl hne
    | cons a r => simp
  have hnothash : ¬((k ++ assignSep ++ quotedForm v).head? = some '#') := by
    rw [hline_head]
    intro hx
    exact hchash (by simpa using hx)
  have hsplit : splitEq (k ++ assignSep ++ quotedForm v) =
      some (k ++ [' '], ' ' :: quotedForm v) := by
    have hshape : k ++ assignSep ++ quotedForm v =
        (k ++ [' ']) ++ '=' :: (' ' :: quotedForm v) := by
      simp [assignSep, List.append_assoc]
    rw [hshape]
    apply splitEq_append
    intro hx
    rcases List.mem_append.mp hx with hx | hx
    · exact hmeq hx
    · simp at hx
  have hhead2 : (k ++ [' ']).head? = some c := by
    cases k with
    | nil => exact absurd rfl hne
    | cons a r => simpa using hhead
  have hkey : trimSpace (k ++ [' ']) = k := by
    unfold trimSpace
    rw [trimLeft_eq_self hhead2 hcsp, trimRight_append_space (by decide),
      trimRight_eq_self hlast hdsp]
  have hqf_last : (quotedForm v).getLast? = some '"' := by
    have : quotedForm v = ('"' :: escapeQuotes v) ++ ['"'] := by simp [quotedForm]
    rw [this, List.getLast?_concat]
  have hvac : trimSpace (' ' :: quotedForm v) = quotedForm v := by
    unfold trimSpace trimLeft
    rw [List.dropWhile_cons, if_pos (by decide),
      dropWhile_eq_self_of_head (show (quotedForm v).head? = some '"' from rfl) (by decide)]
    exact trimRight_eq_self hqf_last (by decide)
  have hfind := findClosingQuote_quotedForm hv
  have hval : unescapeQuotes (((quotedForm v).drop 1).take ((escapeQuotes v).length + 1 - 1)) =
      v := by
    have h1 : (quotedForm v).drop 1 = escapeQuotes v ++ ['"'] := rfl
    rw [h1]
    simp only [Nat.add_sub_cancel]
    rw [List.take_left]
    exact unescapeQuotes_escapeQuotes hv
  have hrem : (quotedForm v).drop ((escapeQuotes v).length + 1 + 1) = [] := by
    apply List.drop_of_length_le
    simp only [quotedForm, List.length_cons, List.length_append, List.length_singleton,
      List.length_nil]
    omega
  unfold parseLine
  rw [htrim, if_neg hnenil, if_neg hnothash, hsplit]
  dsimp only
  rw [hkey, hvac, if_pos (show (quotedForm v).head? = some '"' from rfl), hfind]
  dsimp only
  rw [hval, hrem]
  rfl

/-! ### Serialization reproduces well-formed lines byte-for-byte -/

theorem splitEq_canonicalEntryLine {k v gap cmt : List Char} (hmeq : '=' ∉ k) :
    splitEq (canonicalEntryLine k v gap cmt) =
      some (k ++ [' '],
        ' ' :: (quotedForm v ++ (if cmt.isEmpty then [] else gap ++ cmt))) := by
  have hshape : canonicalEntryLine k v gap cmt =
      (k ++ [' ']) ++ '=' :: (' ' :: (quotedForm v ++ (if cmt.isEmpty then [] else gap ++ cmt))) := by
    simp [canonicalEntryLine, assignSep, List.append_assoc]
  rw [hshape]
  apply splitEq_append
  intro hx
  rcases List.mem_append.mp hx with hx | hx
  · exact hmeq hx
  · simp at hx

theorem render_roundtrip {l : List Char} (h : wellFormedLine l = true) :
    renderEntry (parseLine l) = l ∧ renderPrintEntry (parseLine l) = l := by
  have horig := parseLine_original l
  simp only [wellFormedLine, Bool.and_eq_true] at h
  obtain ⟨-, h3⟩ := h
  by_cases hb : (parseLine l).isBlank = true
  · rw [if_pos hb] at h3
    have hl : l = [] := by simpa using h3
    subst hl
    exact ⟨by decide, by decide⟩
  · rw [if_neg hb] at h3
    have hb2 : (parseLine l).isBlank = false := by
      cases hx : (parseLine l).isBlank
      · rfl
      · exact absurd hx hb
    by_cases hc : (parseLine l).isComment = true
    · constructor
      · unfold renderEntry
        rw [if_neg hb, if_pos hc, horig]
      · unfold renderPrintEntry
        rw [if_neg hb, if_pos hc, horig]
    · rw [if_neg hc] at h3
      rw [Bool.and_eq_true] at h3
      obtain ⟨hk, hcanonb⟩ := h3
      have hcanon : l = canonicalEntryLine (parseLine l).key (parseLine l).value
          (parseLine l).inlineCommentSpace (parseLine l).inlineComment :=
        of_decide_eq_true hcanonb
      obtain ⟨hne, -, ⟨d, hlast, hdsp⟩, hmeq, -⟩ := goodKey_props hk
      have hkeyne : (parseLine l).key.isEmpty = false := by
        cases hx : (parseLine l).key with
        | nil => exact absurd hx hne
        | cons a r => rfl
      have hkeytrim : trimRightST ((parseLine l).key ++ [' ']) = (parseLine l).key := by
        rw [trimRightST_append_space, trimRightST_eq_self hlast hdsp]
      have hsplit : splitEq (parseLine l).original =
          some ((parseLine l).key ++ [' '],
            ' ' :: (quotedForm (parseLine l).value ++
              (if (parseLine l).inlineComment.isEmpty then []
               else (parseLine l).inlineCommentSpace ++ (parseLine l).inlineComment))) := by
        rw [horig]
        conv_lhs => rw [hcanon]
        exact splitEq_canonicalEntryLine hmeq
      have hkeyne2 : ¬((parseLine l).key.isEmpty = true) := by
        rw [hkeyne]
        exact Bool.false_ne_true
      constructor
      · unfold renderEntry
        rw [if_neg hb, if_neg hc, if_neg hkeyne2]
        dsimp only
        rw [hsplit]
        dsimp only
        rw [hkeytrim]
        cases hcm : (parseLine l).inlineComment.isEmpty
        · conv_rhs => rw [hcanon]
          simp [hcm, canonicalEntryLine, List.append_assoc]
        · conv_rhs => rw [hcanon]
          simp [hcm, canonicalEntryLine]
      · unfold renderPrintEntry
        rw [if_neg hb, if_neg hc, if_neg hkeyne2]
        dsimp only
        cases hcm : (parseLine l).inlineComment.isEmpty
        · conv_rhs => rw [hcanon]
          simp [hcm, canonicalEntryLine, List.append_assoc]
        · conv_rhs => rw [hcanon]
          simp [hcm, canonicalEntryLine]

/-! ### The scanner inverts `encodeLines` -/

theorem splitLinesGo_cons (acc : List Char) (c : Char) (xs : List Char) :
    splitLinesGo acc (c :: xs) =
      if c = '\n' then dropCR acc.reverse :: splitLinesGo [] xs
      else splitLinesGo (c :: acc) xs := rfl

theorem splitLinesGo_append :
    ∀ (l : List Char), '\n' ∉ l → ∀ (acc rest : List Char),
    splitLinesGo acc (l ++ '\n' :: rest) = dropCR (acc.reverse ++ l) :: splitLinesGo [] rest := by
  intro l
  induction l with
  | nil =>
    intro _ acc rest
    rw [List.nil_append, splitLinesGo_cons, if_pos rfl, List.append_nil]
  | cons c t ih =>
    intro hnl acc rest
    have hc : c ≠ '\n' := fun h => hnl (h ▸ List.mem_cons_self c t)
    have ht : '\n' ∉ t := fun h => hnl (List.mem_cons_of_mem c h)
    rw [List.cons_append, splitLinesGo_cons, if_neg hc, ih ht (c :: acc) rest]
    congr 2
    rw [List.reverse_cons, List.append_assoc, List.singleton_append]

theorem splitLines_encodeLines :
    ∀ (lines : List (List Char)),
    (∀ l ∈ lines, '\n' ∉ l ∧ l.getLast? ≠ some '\r') →
    splitLines (encodeLines lines) = lines := by
  intro lines
  induction lines with
  | nil => intro _; rfl
  | cons l ls ih =>
    intro h
    obtain ⟨hnl, hcr⟩ := h l (List.mem_cons_self l ls)
    unfold splitLines encodeLines
    rw [splitLinesGo_append l hnl [] (encodeLines ls)]
    have h1 : dropCR (([] : List Char).reverse ++ l) = l := by
      rw [List.reverse_nil, List.nil_append]
      unfold dropCR
      rw [if_neg hcr]
    rw [h1]
    have h2 := ih (fun x hx => h x (List.mem_cons_of_mem l hx))
    unfold splitLines at h2
    rw [h2]

theorem wellFormedLine_nl_cr {l : List Char} (h : wellFormedLine l = true) :
    '\n' ∉ l ∧ l.getLast? ≠ some '\r' := by
  simp only [wellFormedLine, Bool.and_eq_true] at h
  obtain ⟨⟨h1, h2⟩, -⟩ := h
  constructor
  · simpa using h1
  · simpa using h2

theorem loadDictionary_encodeLines {lines : List (List Char)}
    (h : ∀ l ∈ lines, wellFormedLine l = true) :
    loadDictionary (some (encodeLines lines)) = ⟨lines.map parseLine⟩ := by
  unfold loadDictionary
  dsimp only
  rw [splitLines_encodeLines lines (fun l hl => wellFormedLine_nl_cr (h l hl))]

/-- The full round trip: loading a file made of well-formed newline-terminated
lines and saving it reproduces the exact original contents. -/
theorem save_after_load_wellFormed {lines : List (List Char)}
    (h : ∀ l ∈ lines, wellFormedLine l = true) :
    (loadDictionary (some (encodeLines lines))).saveContent = encodeLines lines := by
  rw [loadDictionary_encodeLines h]
  unfold Dictionary.saveContent
  show encodeLines ((lines.map parseLine).map renderEntry) = encodeLines lines
  rw [List.map_map]
  have : lines.map (renderEntry ∘ parseLine) = lines.map id :=
    List.map_congr_left (fun a ha => (render_roundtrip (h a ha)).1)
  rw [this, List.map_id]

theorem print_after_load_wellFormed {lines : List (List Char)}
    (h : ∀ l ∈ lines, wellFormedLine l = true) :
    (loadDictionary (some (encodeLines lines))).printContent = encodeLines lines := by
  rw [loadDictionary_encodeLines h]
  unfold Dictionary.printContent
  show encodeLines ((lines.map parseLine).map renderPrintEntry) = encodeLines lines
  rw [List.map_map]
  have : lines.map (renderPrintEntry ∘ parseLine) = lines.map id :=
    List.map_congr_left (fun a ha => (render_roundtrip (h a ha)).2)
  rw [this, List.map_id]

/-! ### Lemmas on the first-match lookup, update and removal -/

theorem updateFirstCI_cons (k v : List Char) (a : Entry) (t : List Entry) :
    updateFirstCI k v (a :: t) =
      if (toLowerList a.key == toLowerList k) = true then setUpdatedEntry a v :: t
      else a :: updateFirstCI k v t := rfl

theorem removeFirstCI_cons (k : List Char) (a : Entry) (t : List Entry) :
    removeFirstCI k (a :: t) =
      if (toLowerList a.key == toLowerList k) = true then some t
      else match removeFirstCI k t with
        | some rest2 => some (a :: rest2)
        | none => none := rfl

theorem updateFirstCI_getElem_of_ne {k v : List Char} :
    ∀ (l : List Entry) (i : Nat) (e : Entry), l[i]? = some e →
    toLowerList e.key ≠ toLowerList k → (updateFirstCI k v l)[i]? = some e := by
  intro l
  induction l with
  | nil => intro i e h _; simp at h
  | cons a t ih =>
    intro i e h hne
    unfold updateFirstCI
    by_cases ha : (toLowerList a.key == toLowerList k) = true
    · rw [if_pos ha]
      cases i with
      | zero =>
        rw [List.getElem?_cons_zero] at h
        have : a = e := by simpa using h
        subst this
        exact absurd (beq_iff_eq.mp ha) hne
      | succ n =>
        rw [List.getElem?_cons_succ] at h
        rw [List.getElem?_cons_succ]
        exact h
    · rw [if_neg ha]
      cases i with
      | zero =>
        rw [List.getElem?_cons_zero] at h ⊢
        exact h
      | succ n =>
        rw [List.getElem?_cons_succ] at h
        rw [List.getElem?_cons_succ]
        exact ih n e h hne

theorem updateFirstCI_spec {k v : List Char} :
    ∀ (l : List Entry) (e : Entry),
    l.find? (fun x => toLowerList x.key == toLowerList k) = some e →
    ∃ i, l[i]? = some e ∧
      (∀ j, j < i → ∀ x, l[j]? = some x → (toLowerList x.key == toLowerList k) = false) ∧
      updateFirstCI k v l = l.set i (setUpdatedEntry e v) := by
  intro l
  induction l with
  | nil => intro e h; simp [List.find?] at h
  | cons a t ih =>
    intro e h
    by_cases ha : (toLowerList a.key == toLowerList k) = true
    · rw [List.find?_cons_of_pos t ha] at h
      have : a = e := by simpa using h
      subst this
      refine ⟨0, by rw [List.getElem?_cons_zero], fun j hj => absurd hj (by omega), ?_⟩
      unfold updateFirstCI
      rw [if_pos ha, List.set_cons_zero]
    · rw [List.find?_cons_of_neg t ha] at h
      obtain ⟨i, h1, h2, h3⟩ := ih e h
      refine ⟨i + 1, by rw [List.getElem?_cons_succ]; exact h1, ?_, ?_⟩
      · intro j hj x hx
        cases j with
        | zero =>
          rw [List.getElem?_cons_zero] at hx
          have : a = x := by simpa using hx
          subst this
          exact Bool.not_eq_true _ ▸ (by simpa using ha)
        | succ m =>
          rw [List.getElem?_cons_succ] at hx
          exact h2 m (by omega) x hx
      · unfold updateFirstCI
        rw [if_neg ha, h3, List.set_cons_succ]

theorem updateFirstCI_length {k v : List Char} :
    ∀ (l : List Entry), (updateFirstCI k v l).length = l.length := by
  intro l
  induction l with
  | nil => rfl
  | cons a t ih =>
    unfold updateFirstCI
    by_cases ha : (toLowerList a.key == toLowerList k) = true
    · rw [if_pos ha]
      rfl
    · rw [if_neg ha]
      simpa using ih

theorem updateFirstCI_append_left_none {k v : List Char} :
    ∀ (l1 l2 : List Entry),
    (∀ e ∈ l1, (toLowerList e.key == toLowerList k) = false) →
    updateFirstCI k v (l1 ++ l2) = l1 ++ updateFirstCI k v l2 := by
  intro l1
  induction l1 with
  | nil => intro l2 _; rfl
  | cons a t ih =>
    intro l2 h
    have ha := h a (List.mem_cons_self a t)
    rw [List.cons_append, updateFirstCI_cons,
      if_neg (by rw [ha]; exact Bool.false_ne_true),
      ih l2 (fun e he => h e (List.mem_cons_of_mem a he)), List.cons_append]

theorem removeFirstCI_eq_none {k : List Char} :
    ∀ {l : List Entry},
    (∀ e ∈ l, (toLowerList e.key == toLowerList k) = false) →
    removeFirstCI k l = none := by
  intro l
  induction l with
  | nil => intro _; rfl
  | cons a t ih =>
    intro h
    have ha := h a (List.mem_cons_self a t)
    rw [removeFirstCI_cons, if_neg (by rw [ha]; exact Bool.false_ne_true),
      ih (fun e he => h e (List.mem_cons_of_mem a he))]

theorem splitEq_canonicalPair {k : List Char} (v : List Char) (hmeq : '=' ∉ k) :
    splitEq (k ++ assignSep ++ quotedForm v) = some (k ++ [' '], ' ' :: quotedForm v) := by
  have hshape : k ++ assignSep ++ quotedForm v =
      (k ++ [' ']) ++ '=' :: (' ' :: quotedForm v) := by
    simp [assignSep, List.append_assoc]
  rw [hshape]
  apply splitEq_append
  intro hx
  rcases List.mem_append.mp hx with hx | hx
  · exact hmeq hx
  · simp at hx

/-- Rendering the entry `Add` appends reproduces its synthesized raw line. -/
theorem renderEntry_addEntry {k v : List Char} (hk : goodKey k = true) :
    renderEntry (addEntry k v) = k ++ assignSep ++ quotedForm v := by
  obtain ⟨hne, -, ⟨d, hlast, hdsp⟩, hmeq, -⟩ := goodKey_props hk
  unfold addEntry
  have hkne : k.isEmpty = false := by
    cases k with
    | nil => exact absurd rfl hne
    | cons a r => rfl
  unfold renderEntry
  dsimp only
  rw [if_neg Bool.false_ne_true, if_neg Bool.false_ne_true,
    if_neg (by rw [hkne]; exact Bool.false_ne_true), splitEq_canonicalPair v hmeq]
  dsimp only
  rw [trimRightST_append_space, trimRightST_eq_self hlast hdsp]
  simp

/-- A canonical `KEY = "VALUE"` line has no newline and ends with a quote. -/
theorem canonicalPair_nl_last {k v : List Char} (hk : goodKey k = true) (hnlv : '\n' ∉ v) :
    '\n' ∉ (k ++ assignSep ++ quotedForm v) ∧
    (k ++ assignSep ++ quotedForm v).getLast? = some '"' := by
  obtain ⟨-, -, -, -, hknl⟩ := goodKey_props hk
  constructor
  · intro hmem
    rcases List.mem_append.mp hmem with hx | hx
    · rcases List.mem_append.mp hx with hx | hx
      · exact hknl hx
      · simp [assignSep] at hx
    · unfold quotedForm at hx
      rcases List.mem_cons.mp hx with hx | hx
      · exact absurd hx (by decide)
      · rcases List.mem_append.mp hx with hx | hx
        · rcases mem_escapeQuotes hx with hx | hx | hx
          · exact hnlv hx
          · exact absurd hx (by decide)
          · exact absurd hx (by decide)
        · simp at hx
  · have hshape : k ++ assignSep ++ quotedForm v =
        (k ++ assignSep ++ '"' :: escapeQuotes v) ++ ['"'] := by
      simp [quotedForm, List.append_assoc]
    rw [hshape, List.getLast?_concat]

theorem find?_updateFirstCI_isSome {k v : List Char} :
    ∀ (l : List Entry),
    (l.find? (fun x => toLowerList x.key == toLowerList k)).isSome = true →
    ((updateFirstCI k v l).find? (fun x => toLowerList x.key == toLowerList k)).isSome = true := by
  intro l
  induction l with
  | nil => intro h; simp [List.find?] at h
  | cons a t ih =>
    intro h
    rw [updateFirstCI_cons]
    by_cases ha : (toLowerList a.key == toLowerList k) = true
    · rw [if_pos ha]
      have hkey : (setUpdatedEntry a v).key = a.key := rfl
      rw [List.find?_cons_of_pos t (by rw [hkey]; exact ha)]
      rfl
    · rw [if_neg ha]
      rw [List.find?_cons_of_neg t ha] at h
      rw [List.find?_cons_of_neg (updateFirstCI k v t) ha]
      exact ih h

/-- The key is always present after `Set`, whether it updated or appended. -/
theorem keyExists_set (d : Dictionary) (k v : List Char) :
    (d.set k v).keyExists k = true := by
  unfold Dictionary.set
  by_cases hf : (d.findEntryCaseInsensitive k).isSome = true
  · rw [if_pos hf]
    unfold Dictionary.keyExists Dictionary.findEntryCaseInsensitive at hf ⊢
    exact find?_updateFirstCI_isSome d.entries hf
  · rw [if_neg hf]
    have hnone : d.findEntryCaseInsensitive k = none :=
      Option.not_isSome_iff_eq_none.mp hf
    have hnk : d.normalizeKeyCase k = k := by
      unfold Dictionary.normalizeKeyCase
      rw [hnone]
    unfold Dictionary.keyExists Dictionary.findEntryCaseInsensitive
    dsimp only
    rw [hnk, List.find?_append]
    unfold Dictionary.findEntryCaseInsensitive at hnone
    rw [hnone, Option.none_or, List.find?_isSome]
    exact ⟨_, List.mem_singleton_self _, by dsimp only [addEntry]; exact beq_iff_eq.mpr rfl⟩

/-! ## Claim theorems -/

/-- C1, counterexample: the claim that every semantically untouched line is
re-emitted byte-for-byte is false.  In the file `a=1\nx = "0"\n`, setting key
`x` leaves the entry parsed from `a=1` untouched, yet `Save` re-emits that
line as `a = "1"`, which differs from the original bytes `a=1`. -/
theorem claim_c1_counterexample :
    ((loadDictionary (some (String.toList "a=1\nx = \"0\"\n"))).set
        (String.toList "x") (String.toList "2")).entries[0]? =
      some (parseLine (String.toList "a=1")) ∧
    renderEntry (parseLine (String.toList "a=1")) = String.toList "a = \"1\"" ∧
    String.toList "a = \"1\"" ≠ String.toList "a=1" := by decide

/-- C1 (amended): in any loaded document — the file may freely mix lines of
other shapes — after mutating one key via `Set`, every untouched line that is
empty, a full comment, or an assignment already in canonical `KEY = "VALUE"`
form (with optional inline comment) and whose entry does not
case-insensitively match the mutated key is re-emitted byte-for-byte by both
`Save` and `Print`, inline comment spacing included. -/
theorem claim_c1_amended {content k v : List Char} {i : Nat} {l : List Char}
    (hline : (splitLines content)[i]? = some l)
    (hwf : wellFormedLine l = true)
    (hne : toLowerList (parseLine l).key ≠ toLowerList k) :
    ((loadDictionary (some content)).set k v).entries[i]? = some (parseLine l) ∧
    renderEntry (parseLine l) = l ∧ renderPrintEntry (parseLine l) = l := by
  have hget : (loadDictionary (some content)).entries[i]? = some (parseLine l) := by
    show ((splitLines content).map parseLine)[i]? = some (parseLine l)
    rw [List.getElem?_map, hline]
    rfl
  have hrt := render_roundtrip hwf
  refine ⟨?_, hrt.1, hrt.2⟩
  unfold Dictionary.set
  by_cases hf : ((loadDictionary (some content)).findEntryCaseInsensitive k).isSome = true
  · rw [if_pos hf]
    exact updateFirstCI_getElem_of_ne (loadDictionary (some content)).entries i
      (parseLine l) hget hne
  · rw [if_neg hf]
    dsimp only
    rw [List.getElem?_append_left (List.getElem?_eq_some.mp hget).1]
    exact hget

/-- C2, counterexample: the round-trip claim is false as stated.  The file
consisting of a single whitespace-only line (one space, then a newline) has no
assignment lines at all, so every assignment line is vacuously canonical, yet
loading it and saving re-emits the blank line as an empty line: the saved
bytes are `\n`, not ` \n`. -/
theorem claim_c2_counterexample :
    (parseLine [' ']).isBlank = true ∧
    (loadDictionary (some [' ', '\n'])).saveContent ≠ [' ', '\n'] := by decide

/-- C2 (amended): for any file that is a sequence of newline-terminated lines,
each of which is empty, a comment line (not ending in a carriage return), or a
canonical `KEY = "VALUE"` assignment, loading the file and saving reproduces
the exact original bytes. -/
theorem claim_c2_amended {lines : List (List Char)}
    (h : ∀ l ∈ lines, wellFormedLine l = true) :
    (loadDictionary (some (encodeLines lines))).saveContent = encodeLines lines :=
  save_after_load_wellFormed h

/-- C2, witness: a concrete three-line file (a canonical assignment, an empty
line, a comment) survives the load/save round trip byte-for-byte. -/
theorem claim_c2_witness :
    (loadDictionary (some (encodeLines
        [String.toList "guestOS = \"other\"", [], String.toList "# note"]))).saveContent =
      encodeLines [String.toList "guestOS = \"other\"", [], String.toList "# note"] :=
  claim_c2_amended (by decide)

/-- C4: `Add` fails exactly when a case-insensitive match exists; on success it
appends one entry with empty inline comment and canonically quoted raw line;
a second `Add` of the same key fails; and `Set` of the same key always
succeeds (the key is present afterwards in both scenarios). -/
theorem claim_c4 (d : Dictionary) (k v : List Char) :
    (d.add k v = none ↔ d.keyExists k = true) ∧
    (d.keyExists k = false → d.add k v = some ⟨d.entries ++ [addEntry k v]⟩) ∧
    (addEntry k v).inlineComment = [] ∧
    (addEntry k v).original = k ++ assignSep ++ quotedForm v ∧
    (∀ d1 v2, d.add k v = some d1 → d1.add k v2 = none) ∧
    (d.set k v).keyExists k = true := by
  refine ⟨?_, ?_, rfl, rfl, ?_, keyExists_set d k v⟩
  · unfold Dictionary.add
    cases hke : d.keyExists k <;> simp
  · intro hke
    unfold Dictionary.add
    rw [if_neg (by rw [hke]; exact Bool.false_ne_true)]
  · intro d1 v2 hadd
    have hke : d.keyExists k = false := by
      cases hke : d.keyExists k
      · rfl
      · unfold Dictionary.add at hadd
        rw [if_pos hke] at hadd
        exact absurd hadd (by simp)
    have hd1 : d1 = ⟨d.entries ++ [addEntry k v]⟩ := by
      unfold Dictionary.add at hadd
      rw [if_neg (by rw [hke]; exact Bool.false_ne_true)] at hadd
      exact (Option.some.inj hadd).symm
    have hke1 : d1.keyExists k = true := by
      subst hd1
      unfold Dictionary.keyExists Dictionary.findEntryCaseInsensitive
      dsimp only
      rw [List.find?_isSome]
      refine ⟨_, List.mem_append_right _ (List.mem_singleton_self _), ?_⟩
      dsimp only [addEntry]
      exact beq_iff_eq.mpr rfl
    unfold Dictionary.add
    rw [if_pos hke1]

/-- C4, witness: on the empty document, `Add k v` succeeds with the canonical
appended entry and a second `Add` of the same key fails. -/
theorem claim_c4_witness :
    (Dictionary.mk []).add (String.toList "k") (String.toList "v") =
      some ⟨[addEntry (String.toList "k") (String.toList "v")]⟩ ∧
    (Dictionary.mk [addEntry (String.toList "k") (String.toList "v")]).add
      (String.toList "k") (String.toList "w") = none := by
  have h := claim_c4 (Dictionary.mk []) (String.toList "k") (String.toList "v")
  have hadd := h.2.1 (by decide)
  exact ⟨hadd, h.2.2.2.2.1 _ (String.toList "w") hadd⟩

/-- C5: when no case-insensitive match for a key exists, `Query` and `Remove`
both fail (returning no result, the document unchanged by purity); and loading
a nonexistent file yields the empty document rather than an error. -/
theorem claim_c5 {d : Dictionary} {k : List Char}
    (h : d.findEntryCaseInsensitive k = none) :
    d.query k = none ∧ d.remove k = none ∧ loadDictionary none = ⟨[]⟩ := by
  refine ⟨?_, ?_, rfl⟩
  · unfold Dictionary.query
    rw [h]
  · unfold Dictionary.remove
    unfold Dictionary.findEntryCaseInsensitive at h
    rw [removeFirstCI_eq_none ?hall]
    case hall =>
      intro e he
      have hnot := List.find?_eq_none.mp h e he
      cases hb : (toLowerList e.key == toLowerList k)
      · rfl
      · exact absurd hb hnot

/-- C5, witness: querying and removing an absent key on the empty document
fail, and loading a missing file gives the empty document. -/
theorem claim_c5_witness :
    (Dictionary.mk []).query (String.toList "x") = none ∧
    (Dictionary.mk []).remove (String.toList "x") = none ∧
    loadDictionary none = ⟨[]⟩ :=
  claim_c5 (by decide)

/-- C6: the value `a"b` round-trips exactly.  Added to the empty document and
saved, it serializes as the line `k = "a\"b"` (embedded quote escaped); loading
that content back and querying the key returns exactly `a"b`. -/
theorem claim_c6 :
    ((Dictionary.mk []).add (String.toList "k") (String.toList "a\"b")).map
        Dictionary.saveContent = some (String.toList "k = \"a\\\"b\"\n") ∧
    ((Dictionary.mk []).add (String.toList "k") (String.toList "a\"b")).map
        (fun d => (loadDictionary (some d.saveContent)).query (String.toList "k")) =
      some (some (String.toList "a\"b")) := by decide

/-- C8: line classification is total and never fails: the raw text is always
retained verbatim, the blank and comment classifications are mutually
exclusive (with assignment lines being the remaining case), and a malformed
line (non-blank, not starting with `#`, containing no `=`) degrades to a
comment with its raw text preserved. -/
theorem claim_c8 (raw : List Char) :
    (parseLine raw).original = raw ∧
    ¬((parseLine raw).isBlank = true ∧ (parseLine raw).isComment = true) ∧
    ((parseLine raw).isBlank = true ∨ (parseLine raw).isComment = true ∨
      ((parseLine raw).isBlank = false ∧ (parseLine raw).isComment = false)) ∧
    (trimSpace raw ≠ [] → (trimSpace raw).head? ≠ some '#' → '=' ∉ raw →
      parseLine raw = { original := raw, isComment := true }) := by
  refine ⟨parseLine_original raw, parseLine_flags_exclusive raw, ?_, ?_⟩
  · cases hb : (parseLine raw).isBlank <;> cases hc : (parseLine raw).isComment <;> simp
  · exact fun h1 h2 h3 => parseLine_comment_of_noEq h1 h2 h3

/-- C8, witness: the malformed line `hello world` (no `=`) is classified as a
comment with its raw text preserved verbatim. -/
theorem claim_c8_witness :
    parseLine (String.toList "hello world") =
      { original := String.toList "hello world", isComment := true } ∧
    (parseLine (String.toList "hello world")).original = String.toList "hello world" :=
  ⟨(claim_c8 (String.toList "hello world")).2.2.2 (by decide) (by decide) (by decide),
   (claim_c8 (String.toList "hello world")).1⟩

/-- C10, counterexample: the round trip does not hold for every key.  With key
`#a` (and backslash-free value `1`), `Add` succeeds, but after `Save` the line
`#a = "1"` re-loads as a comment, so `Query` fails instead of returning `1`. -/
theorem claim_c10_counterexample :
    ((Dictionary.mk []).add (String.toList "#a") (String.toList "1")).map
      (fun d => (loadDictionary (some d.saveContent)).query (String.toList "#a")) =
      some none := by decide

/-- C10 (amended): for every well-behaved key (nonempty, no surrounding
whitespace, not starting with `#`, containing no `=` and no newline) and every
value containing no backslash and no newline, `Add` on the empty document then
`Save`, `Load`, `Query` returns exactly the original value. -/
theorem claim_c10_amended {k v : List Char} (hk : goodKey k = true)
    (hv : '\\' ∉ v) (hnl : '\n' ∉ v) :
    ((Dictionary.mk []).add k v).map
      (fun d => (loadDictionary (some d.saveContent)).query k) = some (some v) := by
  have hadd : (Dictionary.mk []).add k v = some ⟨[addEntry k v]⟩ := by
    have hke : (Dictionary.mk []).keyExists k = false := rfl
    unfold Dictionary.add
    rw [if_neg (by rw [hke]; exact Bool.false_ne_true)]
    rfl
  rw [hadd, Option.map_some']
  congr 1
  have hsave : (Dictionary.mk [addEntry k v]).saveContent =
      encodeLines [k ++ assignSep ++ quotedForm v] := by
    unfold Dictionary.saveContent
    dsimp only [List.map]
    rw [renderEntry_addEntry hk]
  rw [hsave]
  have hfacts := canonicalPair_nl_last hk hnl
  have hload : loadDictionary (some (encodeLines [k ++ assignSep ++ quotedForm v])) =
      ⟨[parseLine (k ++ assignSep ++ quotedForm v)]⟩ := by
    unfold loadDictionary
    dsimp only
    rw [splitLines_encodeLines [k ++ assignSep ++ quotedForm v]
      (by
        intro l hl
        rw [List.mem_singleton.mp hl]
        exact ⟨hfacts.1, by rw [hfacts.2]; decide⟩)]
    rfl
  rw [hload, parseLine_canonicalPair hk hv]
  unfold Dictionary.query Dictionary.findEntryCaseInsensitive
  dsimp only
  have hq : List.find? (fun e => toLowerList e.key == toLowerList k) [addEntry k v] =
      some (addEntry k v) :=
    List.find?_cons_of_pos [] (beq_iff_eq.mpr rfl)
  rw [hq]
  rfl

/-- C10, witness: the round trip at key `guestOS`, value `linux`. -/
theorem claim_c10_witness :
    ((Dictionary.mk []).add (String.toList "guestOS") (String.toList "linux")).map
      (fun d => (loadDictionary (some d.saveContent)).query (String.toList "guestOS")) =
      some (some (String.toList "linux")) :=
  claim_c10_amended (by decide) (by decide) (by decide)

/-- C1, witness: in the mixed file `a=1\n# c\nx = "0"\n` — whose first line is
not in canonical form — setting key `x` leaves the comment line's entry
untouched and both serializers re-emit it byte-for-byte. -/
theorem claim_c1_witness :
    ((loadDictionary (some (String.toList "a=1\n# c\nx = \"0\"\n"))).set
        (String.toList "x") (String.toList "2")).entries[1]? =
      some (parseLine (String.toList "# c")) ∧
    renderEntry (parseLine (String.toList "# c")) = String.toList "# c" ∧
    renderPrintEntry (parseLine (String.toList "# c")) = String.toList "# c" :=
  claim_c1_amended (by decide) (by decide) (by decide)

/-- C3: on any document with no case-insensitive entry for `foo`,
`Add("foo","1")` succeeds, `Query("FOO")` returns `"1"`, and a subsequent
`Set("Foo","2")` updates that same stored entry in place: no new entry line is
created, the stored key remains `foo` (the case first used), and the entry
serializes as `foo = "2"`. -/
theorem claim_c3 {d : Dictionary}
    (h : d.findEntryCaseInsensitive (String.toList "foo") = none) :
    ∃ d1, d.add (String.toList "foo") (String.toList "1") = some d1 ∧
      d1.query (String.toList "FOO") = some (String.toList "1") ∧
      (d1.set (String.toList "Foo") (String.toList "2")).entries.length =
        d1.entries.length ∧
      ∃ e1, (d1.set (String.toList "Foo") (String.toList "2")).entries[d.entries.length]? =
          some e1 ∧
        e1.key = String.toList "foo" ∧ e1.value = String.toList "2" ∧
        renderEntry e1 = String.toList "foo = \"2\"" := by
  have hfind : d.entries.find?
      (fun e => toLowerList e.key == toLowerList (String.toList "foo")) = none := h
  have hke : d.keyExists (String.toList "foo") = false := by
    unfold Dictionary.keyExists
    rw [h]
    rfl
  have hallGen : ∀ kk : List Char, toLowerList kk = toLowerList (String.toList "foo") →
      ∀ e ∈ d.entries, (toLowerList e.key == toLowerList kk) = false := by
    intro kk hkk e he
    have hnot := List.find?_eq_none.mp hfind e he
    rw [hkk]
    cases hb : (toLowerList e.key == toLowerList (String.toList "foo"))
    · rfl
    · exact absurd hb hnot
  have hfindGen : ∀ kk : List Char, toLowerList kk = toLowerList (String.toList "foo") →
      (d.entries ++ [addEntry (String.toList "foo") (String.toList "1")]).find?
        (fun e => toLowerList e.key == toLowerList kk) =
        some (addEntry (String.toList "foo") (String.toList "1")) := by
    intro kk hkk
    rw [List.find?_append]
    have h1 : d.entries.find? (fun e => toLowerList e.key == toLowerList kk) = none := by
      apply List.find?_eq_none.mpr
      intro x hx
      rw [hallGen kk hkk x hx]
      exact Bool.false_ne_true
    rw [h1, Option.none_or]
    apply List.find?_cons_of_pos
    show (toLowerList (addEntry (String.toList "foo") (String.toList "1")).key ==
      toLowerList kk) = true
    rw [hkk]
    decide
  have hsetEntries :
      ((Dictionary.mk (d.entries ++ [addEntry (String.toList "foo") (String.toList "1")])).set
        (String.toList "Foo") (String.toList "2")).entries =
      d.entries ++ [setUpdatedEntry (addEntry (String.toList "foo") (String.toList "1"))
        (String.toList "2")] := by
    unfold Dictionary.set
    rw [if_pos (by
      unfold Dictionary.findEntryCaseInsensitive
      dsimp only
      rw [hfindGen (String.toList "Foo") (by decide)]
      rfl)]
    dsimp only
    rw [updateFirstCI_append_left_none d.entries _ (hallGen (String.toList "Foo") (by decide)),
      updateFirstCI_cons, if_pos (by decide)]
  refine ⟨⟨d.entries ++ [addEntry (String.toList "foo") (String.toList "1")]⟩, ?_, ?_, ?_, ?_⟩
  · unfold Dictionary.add
    rw [if_neg (by rw [hke]; exact Bool.false_ne_true)]
  · unfold Dictionary.query Dictionary.findEntryCaseInsensitive
    dsimp only
    rw [hfindGen (String.toList "FOO") (by decide)]
    rfl
  · rw [hsetEntries]
    dsimp only
    rw [List.length_append, List.length_append]
    rfl
  · refine ⟨setUpdatedEntry (addEntry (String.toList "foo") (String.toList "1"))
      (String.toList "2"), ?_, rfl, rfl, by decide⟩
    rw [hsetEntries, List.getElem?_append_right (le_refl _)]
    simp

/-- C3, witness: the scenario on the empty document. -/
theorem claim_c3_witness :
    ∃ d1, (Dictionary.mk []).add (String.toList "foo") (String.toList "1") = some d1 ∧
      d1.query (String.toList "FOO") = some (String.toList "1") ∧
      (d1.set (String.toList "Foo") (String.toList "2")).entries.length =
        d1.entries.length ∧
      ∃ e1, (d1.set (String.toList "Foo")
          (String.toList "2")).entries[(Dictionary.mk []).entries.length]? = some e1 ∧
        e1.key = String.toList "foo" ∧ e1.value = String.toList "2" ∧
        renderEntry e1 = String.toList "foo = \"2\"" :=
  claim_c3 (by decide)

/-- C7: when `Set` finds an entry case-insensitively (a normal assignment
entry, with a well-behaved key), it updates that entry's value in place,
re-synthesizing the raw line in canonical quoted form while re-appending the
original inline-comment gap and inline comment, so the serialized line keeps
the inline comment and its exact preceding whitespace. -/
theorem claim_c7 {d : Dictionary} {k v : List Char} {e : Entry}
    (hfind : d.findEntryCaseInsensitive k = some e)
    (hb : e.isBlank = false) (hc : e.isComment = false)
    (hne : e.key ≠ []) (hmeq : '=' ∉ e.key) (htr : trimRightST e.key = e.key) :
    ∃ i, d.entries[i]? = some e ∧
      (d.set k v).entries = d.entries.set i (setUpdatedEntry e v) ∧
      (setUpdatedEntry e v).value = v ∧
      (setUpdatedEntry e v).key = e.key ∧
      (setUpdatedEntry e v).inlineComment = e.inlineComment ∧
      (setUpdatedEntry e v).inlineCommentSpace = e.inlineCommentSpace ∧
      renderEntry (setUpdatedEntry e v) =
        e.key ++ assignSep ++ quotedForm v ++
          (if e.inlineComment.isEmpty then [] else
            e.inlineCommentSpace ++ e.inlineComment) := by
  have hfind2 : d.entries.find? (fun x => toLowerList x.key == toLowerList k) = some e := hfind
  obtain ⟨i, h1, -, h3⟩ := updateFirstCI_spec d.entries e hfind2
  refine ⟨i, h1, ?_, rfl, rfl, rfl, rfl, ?_⟩
  · unfold Dictionary.set
    rw [if_pos (by rw [hfind]; rfl)]
    exact h3
  · have hso : (setUpdatedEntry e v).original =
        canonicalEntryLine e.key v e.inlineCommentSpace e.inlineComment := rfl
    have hb2 : (setUpdatedEntry e v).isBlank = false := hb
    have hc2 : (setUpdatedEntry e v).isComment = false := hc
    have hkne : (setUpdatedEntry e v).key.isEmpty = false := by
      show e.key.isEmpty = false
      cases hx : e.key with
      | nil => exact absurd hx hne
      | cons a r => rfl
    unfold renderEntry
    rw [if_neg (by rw [hb2]; exact Bool.false_ne_true),
      if_neg (by rw [hc2]; exact Bool.false_ne_true),
      if_neg (by rw [hkne]; exact Bool.false_ne_true), hso,
      splitEq_canonicalEntryLine hmeq]
    dsimp only
    rw [trimRightST_append_space, htr]
    cases hcm : e.inlineComment.isEmpty
    · have hcm2 : (setUpdatedEntry e v).inlineComment.isEmpty = false := hcm
      rw [if_neg (by rw [hcm2]; exact Bool.false_ne_true)]
      simp [hcm, setUpdatedEntry, List.append_assoc]
    · have hcm2 : (setUpdatedEntry e v).inlineComment.isEmpty = true := hcm
      rw [if_pos hcm2]
      simp [hcm, setUpdatedEntry]

/-- C7, witness: setting `FOO` to `2` in a document loaded from
`foo = "1"  # note` keeps the inline comment and its two-space gap. -/
theorem claim_c7_witness :
    ∃ i, (loadDictionary (some (String.toList "foo = \"1\"  # note\n"))).entries[i]? =
        some (parseLine (String.toList "foo = \"1\"  # note")) ∧
      ((loadDictionary (some (String.toList "foo = \"1\"  # note\n"))).set
          (String.toList "FOO") (String.toList "2")).entries =
        (loadDictionary (some (String.toList "foo = \"1\"  # note\n"))).entries.set i
          (setUpdatedEntry (parseLine (String.toList "foo = \"1\"  # note"))
            (String.toList "2")) ∧
      (setUpdatedEntry (parseLine (String.toList "foo = \"1\"  # note"))
        (String.toList "2")).value = String.toList "2" ∧
      (setUpdatedEntry (parseLine (String.toList "foo = \"1\"  # note"))
        (String.toList "2")).key = (parseLine (String.toList "foo = \"1\"  # note")).key ∧
      (setUpdatedEntry (parseLine (String.toList "foo = \"1\"  # note"))
        (String.toList "2")).inlineComment =
        (parseLine (String.toList "foo = \"1\"  # note")).inlineComment ∧
      (setUpdatedEntry (parseLine (String.toList "foo = \"1\"  # note"))
        (String.toList "2")).inlineCommentSpace =
        (parseLine (String.toList "foo = \"1\"  # note")).inlineCommentSpace ∧
      renderEntry (setUpdatedEntry (parseLine (String.toList "foo = \"1\"  # note"))
        (String.toList "2")) =
        (parseLine (String.toList "foo = \"1\"  # note")).key ++ assignSep ++
          quotedForm (String.toList "2") ++
          (if (parseLine (String.toList "foo = \"1\"  # note")).inlineComment.isEmpty then []
           else (parseLine (String.toList "foo = \"1\"  # note")).inlineCommentSpace ++
             (parseLine (String.toList "foo = \"1\"  # note")).inlineComment) :=
  claim_c7 (by decide) (by decide) (by decide) (by decide) (by decide) (by decide)

/-- C9: `Load` does not deduplicate case-insensitively equal keys: a file with
two canonical assignment lines whose keys agree up to case loads into a
document holding both entries, and `Query`, `Set`, and `Remove` then act only
on the first entry in file order, leaving the later duplicate in place. -/
theorem claim_c9 {k1 v1 k2 v2 k v3 : List Char}
    (hk1 : goodKey k1 = true) (hk2 : goodKey k2 = true)
    (hv1 : '\\' ∉ v1) (hv2 : '\\' ∉ v2) (hnl1 : '\n' ∉ v1) (hnl2 : '\n' ∉ v2)
    (_hci : toLowerList k1 = toLowerList k2) (hk : toLowerList k = toLowerList k1) :
    (loadDictionary (some (encodeLines
        [k1 ++ assignSep ++ quotedForm v1, k2 ++ assignSep ++ quotedForm v2]))).entries =
      [addEntry k1 v1, addEntry k2 v2] ∧
    (loadDictionary (some (encodeLines
        [k1 ++ assignSep ++ quotedForm v1, k2 ++ assignSep ++ quotedForm v2]))).query k =
      some v1 ∧
    ((loadDictionary (some (encodeLines
        [k1 ++ assignSep ++ quotedForm v1, k2 ++ assignSep ++ quotedForm v2]))).set
        k v3).entries =
      [setUpdatedEntry (addEntry k1 v1) v3, addEntry k2 v2] ∧
    (loadDictionary (some (encodeLines
        [k1 ++ assignSep ++ quotedForm v1, k2 ++ assignSep ++ quotedForm v2]))).remove k =
      some ⟨[addEntry k2 v2]⟩ := by
  have hload : loadDictionary (some (encodeLines
      [k1 ++ assignSep ++ quotedForm v1, k2 ++ assignSep ++ quotedForm v2])) =
      ⟨[addEntry k1 v1, addEntry k2 v2]⟩ := by
    unfold loadDictionary
    dsimp only
    rw [splitLines_encodeLines _ (by
      intro l hl
      rcases List.mem_cons.mp hl with rfl | hl
      · exact ⟨(canonicalPair_nl_last hk1 hnl1).1,
          by rw [(canonicalPair_nl_last hk1 hnl1).2]; decide⟩
      · rcases List.mem_cons.mp hl with rfl | hl
        · exact ⟨(canonicalPair_nl_last hk2 hnl2).1,
            by rw [(canonicalPair_nl_last hk2 hnl2).2]; decide⟩
        · simp at hl)]
    dsimp only [List.map]
    rw [parseLine_canonicalPair hk1 hv1, parseLine_canonicalPair hk2 hv2]
  have hpred1 : (toLowerList (addEntry k1 v1).key == toLowerList k) = true := by
    rw [hk]
    exact beq_iff_eq.mpr rfl
  have hq : List.find? (fun e => toLowerList e.key == toLowerList k)
      [addEntry k1 v1, addEntry k2 v2] = some (addEntry k1 v1) :=
    List.find?_cons_of_pos _ hpred1
  refine ⟨by rw [hload], ?_, ?_, ?_⟩
  · unfold Dictionary.query Dictionary.findEntryCaseInsensitive
    rw [hload]
    dsimp only
    rw [hq]
    rfl
  · unfold Dictionary.set
    rw [hload]
    rw [if_pos (by
      unfold Dictionary.findEntryCaseInsensitive
      dsimp only
      rw [hq]
      rfl)]
    dsimp only
    rw [updateFirstCI_cons, if_pos hpred1]
  · unfold Dictionary.remove
    rw [hload]
    dsimp only
    rw [removeFirstCI_cons, if_pos hpred1]

/-- C9, witness: the file `A = "1"\na = "2"\n` loads with both entries;
querying `a` returns `1`, setting `a` rewrites only the first entry, removing
`a` removes only the first entry. -/
theorem claim_c9_witness :
    (loadDictionary (some (encodeLines
        [String.toList "A" ++ assignSep ++ quotedForm (String.toList "1"),
         String.toList "a" ++ assignSep ++ quotedForm (String.toList "2")]))).entries =
      [addEntry (String.toList "A") (String.toList "1"),
       addEntry (String.toList "a") (String.toList "2")] ∧
    (loadDictionary (some (encodeLines
        [String.toList "A" ++ assignSep ++ quotedForm (String.toList "1"),
         String.toList "a" ++ assignSep ++ quotedForm (String.toList "2")]))).query
        (String.toList "a") = some (String.toList "1") ∧
    ((loadDictionary (some (encodeLines
        [String.toList "A" ++ assignSep ++ quotedForm (String.toList "1"),
         String.toList "a" ++ assignSep ++ quotedForm (String.toList "2")]))).set
        (String.toList "a") (String.toList "3")).entries =
      [setUpdatedEntry (addEntry (String.toList "A") (String.toList "1")) (String.toList "3"),
       addEntry (String.toList "a") (String.toList "2")] ∧
    (loadDictionary (some (encodeLines
        [String.toList "A" ++ assignSep ++ quotedForm (String.toList "1"),
         String.toList "a" ++ assignSep ++ quotedForm (String.toList "2")]))).remove
        (String.toList "a") =
      some ⟨[addEntry (String.toList "a") (String.toList "2")]⟩ :=
  claim_c9 (by decide) (by decide) (by decide) (by decide) (by decide) (by decide)
    (by decide) (by decide)

end Vmxtool
